import Mathlib

/-!
Verification of the CoreSplorer JSON generator
(src/tools/json_generator/src/generate.py).

Shallow embedding conventions:
* A YAML/JSON node record (a Python dict) is embedded as a structure of
  Option-valued fields: a missing dict key is None.
* Python dicts that the program treats as ordered mappings are embedded as
  association lists with unique keys (insertion order preserved); Python sets
  are embedded as Finset.
* Functions whose Python counterparts can raise KeyError (subscript access on
  a possibly missing key) return Option; functions that run only on validated
  input access required fields with a default that is provably never used.
* Python's sorted over tuples is lexicographic comparison; it is embedded as
  insertionSort by the lexicographic order (which sort is used is irrelevant:
  only sortedness and permutation are).
-/

/-- An entry of a node's edges list: a dict that should carry a target key. -/
structure RawEdge where
  target : Option String
deriving DecidableEq, Repr

/-- A node record as loaded from YAML: a dict whose required keys may be
missing. Extra opaque keys other than spl_code are not tracked. -/
structure RawNode where
  id : Option String
  label : Option String
  type_ : Option String
  app : Option String
  owner : Option String
  last_modified : Option String
  edges : Option (List RawEdge)
  spl_code : Option String
deriving DecidableEq, Repr

/-- node.get with default empty list for the edges key. -/
def RawNode.edgesList (n : RawNode) : List RawEdge :=
  n.edges.getD []

/-- Adjacency structure: dict mapping node id to list of neighbor ids. -/
abbrev AdjList := List (String × List String)

/-- dict.get for adjacency with default empty list (adjacency.get with
default in collect_transitive_edges). -/
def dictGet (d : AdjList) (k : String) : List String :=
  match d with
  | [] => []
  | (k', v) :: rest => if k = k' then v else dictGet rest k

/-- dict lookup returning Option (models subscript access / the in test). -/
def dictLookup {β : Type} (d : List (String × β)) (k : String) : Option β :=
  match d with
  | [] => none
  | (k', v) :: rest => if k = k' then some v else dictLookup rest k

/-- the in test for a dict's keys. -/
def dictContains {β : Type} (d : List (String × β)) (k : String) : Bool :=
  (dictLookup d k).isSome

/-- dict assignment: overwrite the key in place if present, else append. -/
def dictInsert {β : Type} (d : List (String × β)) (k : String) (v : β) :
    List (String × β) :=
  match d with
  | [] => [(k, v)]
  | (k', v') :: rest =>
      if k = k' then (k, v) :: rest else (k', v') :: dictInsert rest k v

/-- In-place update of the value at a key, identity if the key is absent. -/
def dictModify {β : Type} (d : List (String × β)) (k : String) (f : β → β) :
    List (String × β) :=
  match d with
  | [] => []
  | (k', v') :: rest =>
      if k = k' then (k', f v') :: rest else (k', v') :: dictModify rest k f

/-- defaultdict(list) append: d[k].append(v) creates the key on first
access. -/
def dpAppend (d : AdjList) (k : String) (v : String) : AdjList :=
  match d with
  | [] => [(k, [v])]
  | (k', vs) :: rest =>
      if k = k' then (k', vs ++ [v]) :: rest else (k', vs) :: dpAppend rest k v

/-- Pre-populate a key with an empty list if absent
(the explicit assignment in build_graph_structures). -/
def ensureKey (d : AdjList) (k : String) : AdjList :=
  if dictContains d k then d else d ++ [(k, [])]

/-! ## Closure engine: collect_transitive_edges (BFS) -/

/-- Edge orientation rule of collect_transitive_edges: downstream records
(current, neighbor), anything else records (neighbor, current). -/
def orientEdge (direction : String) (current neighbor : String) :
    String × String :=
  if direction = "downstream" then (current, neighbor) else (neighbor, current)

/-- The local state of the BFS loop in collect_transitive_edges. -/
structure BfsState where
  edges : List (String × String)
  visitedEdges : Finset (String × String)
  visitedNodes : Finset String
  queue : List String
deriving DecidableEq

/-- The body of the for-neighbor loop of collect_transitive_edges: record the
oriented edge if unseen, mark and enqueue the neighbor if unseen. -/
def processNeighbors (direction current : String) :
    List String → BfsState → BfsState
  | [], s => s
  | neighbor :: rest, s =>
      let edge := orientEdge direction current neighbor
      let s1 : BfsState :=
        if edge ∈ s.visitedEdges then s
        else { s with edges := s.edges ++ [edge],
                      visitedEdges := insert edge s.visitedEdges }
      let s2 : BfsState :=
        if neighbor ∈ s1.visitedNodes then s1
        else { s1 with visitedNodes := insert neighbor s1.visitedNodes,
                       queue := s1.queue ++ [neighbor] }
      processNeighbors direction current rest s2

/-- All node ids occurring in an adjacency structure (keys and neighbors). -/
def adjNodes (adj : AdjList) : List String :=
  adj.foldr (fun p acc => p.1 :: p.2 ++ acc) []

/-- The nodes of an adjacency structure, as a finite set. -/
def adjUniverse (adj : AdjList) : Finset String :=
  (adjNodes adj).toFinset

theorem dictGet_subset_adjNodes (adj : AdjList) (k : String) :
    ∀ x ∈ dictGet adj k, x ∈ adjNodes adj := by
  induction adj with
  | nil => intro x hx; simp [dictGet] at hx
  | cons p rest ih =>
      intro x hx
      by_cases hk : k = p.1
      · simp [dictGet, hk] at hx
        simp [adjNodes, List.foldr]
        right; left; exact hx
      · rw [show (p :: rest : AdjList) = p :: rest from rfl] at hx
        simp only [dictGet] at hx
        rw [if_neg hk] at hx
        have := ih x hx
        simp [adjNodes, List.foldr] at this ⊢
        tauto

theorem processNeighbors_spec (direction current : String) (ns : List String) :
    ∀ s : BfsState, ∃ d : List String,
      (processNeighbors direction current ns s).visitedNodes
        = s.visitedNodes ∪ d.toFinset ∧
      (processNeighbors direction current ns s).queue = s.queue ++ d ∧
      d.Nodup ∧ ∀ x ∈ d, x ∈ ns ∧ x ∉ s.visitedNodes := by
  induction ns with
  | nil =>
      intro s
      exact ⟨[], by simp [processNeighbors]⟩
  | cons neighbor rest ih =>
      intro s
      simp only [processNeighbors]
      set edge := orientEdge direction current neighbor with hedge
      set s1 : BfsState :=
        if edge ∈ s.visitedEdges then s
        else { s with edges := s.edges ++ [edge],
                      visitedEdges := insert edge s.visitedEdges } with hs1
      have hs1vn : s1.visitedNodes = s.visitedNodes := by
        by_cases h : edge ∈ s.visitedEdges <;> simp [hs1, h]
      have hs1q : s1.queue = s.queue := by
        by_cases h : edge ∈ s.visitedEdges <;> simp [hs1, h]
      by_cases hn : neighbor ∈ s1.visitedNodes
      · rw [if_pos hn]
        obtain ⟨d, h1, h2, h3, h4⟩ := ih s1
        refine ⟨d, ?_, ?_, h3, ?_⟩
        · rw [h1, hs1vn]
        · rw [h2, hs1q]
        · intro x hx
          rcases h4 x hx with ⟨ha, hb⟩
          rw [hs1vn] at hb
          exact ⟨by simp [ha], hb⟩
      · rw [if_neg hn]
        obtain ⟨d, h1, h2, h3, h4⟩ :=
          ih { s1 with visitedNodes := insert neighbor s1.visitedNodes,
                       queue := s1.queue ++ [neighbor] }
        refine ⟨neighbor :: d, ?_, ?_, ?_, ?_⟩
        · rw [h1]
          simp only [hs1vn, List.toFinset_cons]
          ext x
          simp only [Finset.mem_union, Finset.mem_insert, List.mem_toFinset]
          tauto
        · rw [h2]; simp [hs1q]
        · refine List.nodup_cons.mpr ⟨?_, h3⟩
          intro hmem
          rcases h4 neighbor hmem with ⟨_, hb⟩
          simp at hb
        · intro x hx
          rcases List.mem_cons.mp hx with h | h
          · subst h
            exact ⟨by simp, by rw [← hs1vn]; exact hn⟩
          · rcases h4 x h with ⟨ha, hb⟩
            simp at hb
            rw [hs1vn] at hb
            exact ⟨by simp [ha], hb.2⟩

theorem bfs_measure_lt (U vn : Finset String) (rest d : List String)
    (hd : d.Nodup) (hmem : ∀ x ∈ d, x ∈ U ∧ x ∉ vn) :
    (U \ (vn ∪ d.toFinset)).card + (rest ++ d).length
      < (U \ vn).card + (rest.length + 1) := by
  have hsub : d.toFinset ⊆ U \ vn := by
    intro x hx
    rw [List.mem_toFinset] at hx
    rcases hmem x hx with ⟨h1, h2⟩
    exact Finset.mem_sdiff.mpr ⟨h1, h2⟩
  have h1 : U \ (vn ∪ d.toFinset) = (U \ vn) \ d.toFinset := by
    ext x; simp [Finset.mem_sdiff, Finset.mem_union]; tauto
  have h2 : ((U \ vn) \ d.toFinset).card = (U \ vn).card - d.toFinset.card :=
    Finset.card_sdiff hsub
  have h3 : d.toFinset.card = d.length := List.toFinset_card_of_nodup hd
  have h4 : d.toFinset.card ≤ (U \ vn).card := Finset.card_le_card hsub
  rw [h1, h2, h3] at *
  simp only [List.length_append]
  omega

/-- The while-queue loop of collect_transitive_edges. The trace argument is
ghost instrumentation recording the order in which nodes are dequeued; it
does not influence the computation. -/
def bfsLoop (adj : AdjList) (direction : String) (s : BfsState)
    (trace : List String) : BfsState × List String :=
  match h : s.queue with
  | [] => (s, trace)
  | current :: rest =>
      bfsLoop adj direction
        (processNeighbors direction current (dictGet adj current)
          { s with queue := rest })
        (trace ++ [current])
termination_by (adjUniverse adj \ s.visitedNodes).card + s.queue.length
decreasing_by
  obtain ⟨d, h1, h2, h3, h4⟩ :=
    processNeighbors_spec direction current (dictGet adj current)
      { s with queue := rest }
  rw [h1, h2]
  simp only []
  rw [h]
  have hmem : ∀ x ∈ d, x ∈ adjUniverse adj ∧ x ∉ s.visitedNodes := by
    intro x hx
    rcases h4 x hx with ⟨ha, hb⟩
    refine ⟨?_, by simpa using hb⟩
    exact List.mem_toFinset.mpr (dictGet_subset_adjNodes adj current x ha)
  simpa using bfs_measure_lt (adjUniverse adj) s.visitedNodes rest d h3 hmem

/-- The initial BFS state of collect_transitive_edges: empty edge list and
edge set, visited nodes seeded with the start node, queue seeded with the
start node. -/
def bfsInit (start_id : String) : BfsState :=
  { edges := [], visitedEdges := ∅, visitedNodes := {start_id},
    queue := [start_id] }

/-- BFS traversal collecting all transitive edges from a start node
(collect_transitive_edges in generate.py). -/
def collect_transitive_edges (start_id : String) (adjacency : AdjList)
    (direction : String) : List (String × String) :=
  (bfsLoop adjacency direction (bfsInit start_id) []).1.edges

/-- Sanity check of the embedding on a two-node cycle with a self-loop. -/
theorem collect_transitive_edges_cycle_example :
    collect_transitive_edges "a" [("a", ["b", "a"]), ("b", ["a"])] "downstream"
      = [("a", "b"), ("a", "a"), ("b", "a")] := by
  simp [collect_transitive_edges, bfsLoop, processNeighbors, orientEdge,
    dictGet, bfsInit]

/-! ## Validator -/

/-- ID follows the name-app-type pattern: at least 3 hyphen-separated
segments. Splitting a string on a single-character separator yields
(number of separator occurrences + 1) parts, so the length test of
validate_id_format is embedded by counting hyphens. -/
def validate_id_format (node_id : String) : Bool :=
  (node_id.data.filter (fun c => c = '-')).length + 1 ≥ 3

def requiredFields : List String :=
  ["id", "label", "type", "app", "owner", "last_modified"]

/-- Key-presence test for the tracked required keys of a node dict. -/
def fieldPresent (n : RawNode) : String → Bool
  | "id" => n.id.isSome
  | "label" => n.label.isSome
  | "type" => n.type_.isSome
  | "app" => n.app.isSome
  | "owner" => n.owner.isSome
  | "last_modified" => n.last_modified.isSome
  | _ => true

def validTypes : List String :=
  ["index", "saved_search", "macro", "lookup_def", "lookup_file",
   "dashboard", "data_model", "event_type"]

/-- The known-id set: ids of all nodes that carry an id key. -/
def allIds (nodes : List RawNode) : Finset String :=
  (nodes.filterMap RawNode.id).toFinset

/-- A validation error. The source formats these as strings; each
constructor carries the data the formatted message interpolates. -/
inductive VError where
  | missingField (index : Nat) (field : String)
  | duplicateId (id : String)
  | badIdFormat (id : String)
  | invalidType (id : String) (t : String)
  | edgeMissingTarget (id : String)
  | danglingTarget (id : String) (target : String)
deriving DecidableEq, Repr

/-- The per-edge target checks of validate_nodes for one node, in edge
order: a missing target key or a target outside the known-id set is an
error. -/
def edgeErrorsFor (ids : Finset String) (node_id : String)
    (es : List RawEdge) : List VError :=
  es.foldr
    (fun e acc =>
      (match e.target with
       | none => [VError.edgeMissingTarget node_id]
       | some t =>
           if t ∈ ids then [] else [VError.danglingTarget node_id t]) ++ acc)
    []

/-- The errors contributed by one node of the main validation loop, in
source order: missing fields, then (when an id is present) duplicate id,
id format, type membership, and per-edge target checks. -/
def nodeErrors (ids : Finset String) (seen : Finset String) (i : Nat)
    (n : RawNode) : List VError :=
  let fieldErrs :=
    (requiredFields.filter (fun f => !fieldPresent n f)).map (VError.missingField i)
  match n.id with
  | none => fieldErrs
  | some node_id =>
      let dupErrs := if node_id ∈ seen then [VError.duplicateId node_id] else []
      let fmtErrs :=
        if validate_id_format node_id then [] else [VError.badIdFormat node_id]
      let typeErrs :=
        match n.type_ with
        | some t => if t ∈ validTypes then [] else [VError.invalidType node_id t]
        | none => []
      fieldErrs ++ dupErrs ++ fmtErrs ++ typeErrs ++
        edgeErrorsFor ids node_id n.edgesList

/-- The indexed loop of validate_nodes, threading the seen-id set. A node
without an id contributes its missing-field errors and is skipped for all
further per-node checks (the continue). -/
def validateLoop (ids : Finset String) : Nat → Finset String → List RawNode →
    List VError
  | _, _, [] => []
  | i, seen, n :: rest =>
      nodeErrors ids seen i n ++
        validateLoop ids (i + 1)
          (match n.id with
           | some node_id => insert node_id seen
           | none => seen)
          rest

/-- validate_nodes: validate all nodes and return the list of errors. -/
def validate_nodes (nodes : List RawNode) : List VError :=
  validateLoop (allIds nodes) 0 ∅ nodes

/-! ## Sorting of edge pairs (Python sorted over 2-tuples) -/

/-- Lexicographic order on (source, target) pairs, as Python tuple
comparison computes it. -/
def edgeLe (a b : String × String) : Prop :=
  a.1 < b.1 ∨ (a.1 = b.1 ∧ a.2 ≤ b.2)

instance : DecidableRel edgeLe := fun a b => by
  unfold edgeLe; infer_instance

instance : IsTotal (String × String) edgeLe where
  total a b := by
    unfold edgeLe
    rcases lt_trichotomy a.1 b.1 with h | h | h
    · exact Or.inl (Or.inl h)
    · rcases le_total a.2 b.2 with h2 | h2
      · exact Or.inl (Or.inr ⟨h, h2⟩)
      · exact Or.inr (Or.inr ⟨h.symm, h2⟩)
    · exact Or.inr (Or.inl h)

instance : IsTrans (String × String) edgeLe where
  trans a b c hab hbc := by
    unfold edgeLe at *
    rcases hab with h1 | ⟨h1, h1'⟩ <;> rcases hbc with h2 | ⟨h2, h2'⟩
    · exact Or.inl (h1.trans h2)
    · exact Or.inl (h2 ▸ h1)
    · exact Or.inl (h1 ▸ h2)
    · exact Or.inr ⟨h1.trans h2, h1'.trans h2'⟩

instance : IsAntisymm (String × String) edgeLe where
  antisymm a b hab hba := by
    unfold edgeLe at *
    rcases hab with h1 | ⟨h1, h1'⟩ <;> rcases hba with h2 | ⟨h2, h2'⟩
    · exact absurd h2 (lt_asymm h1)
    · exact absurd h1 (h2 ▸ lt_irrefl _)
    · exact absurd h2 (h1 ▸ lt_irrefl _)
    · exact Prod.ext h1 (le_antisymm h1' h2')

/-- Python's sorted over a collection of (source, target) tuples. -/
def sortEdgePairs (l : List (String × String)) : List (String × String) :=
  List.insertionSort edgeLe l

/-- collect_all_edges_for_node: union of the downstream closure over the
outgoing structure and the upstream closure over the incoming structure,
deduplicated (the Python set) and then sorted. The dedup of the
concatenation is one enumeration of that set; sortEdgePairs makes the
result independent of which enumeration the set iteration yields. -/
def collect_all_edges_for_node (node_id : String)
    (outgoing incoming : AdjList) : List (String × String) :=
  let downstream_edges := collect_transitive_edges node_id outgoing "downstream"
  let upstream_edges := collect_transitive_edges node_id incoming "upstream"
  sortEdgePairs ((downstream_edges ++ upstream_edges).dedup)

/-! ## Reverse lookup and graph structures (fallible: subscript access) -/

/-- build_reverse_lookup: for each node, the set of node ids that directly
reference it. Subscript access on id and target keys raises on a missing
key, hence the Option result. Edges whose target is not a known node id
are silently skipped by the membership guard. -/
def build_reverse_lookup (nodes : List RawNode) :
    Option (List (String × Finset String)) := do
  let init ← nodes.foldlM
    (fun d n => do
      let node_id ← n.id
      pure (dictInsert d node_id (∅ : Finset String)))
    ([] : List (String × Finset String))
  nodes.foldlM
    (fun d n => do
      let node_id ← n.id
      n.edgesList.foldlM
        (fun d e => do
          let target ← e.target
          pure (if dictContains d target
                then dictModify d target (insert node_id)
                else d))
        d)
    init

/-- build_graph_structures: bidirectional adjacency lists. Each node id is
pre-populated with an empty entry in both structures; each edge appends the
target to the source's outgoing list and the source to the target's
incoming list (defaultdict behaviour creates missing keys on append). -/
def build_graph_structures (nodes : List RawNode) :
    Option (AdjList × AdjList) :=
  nodes.foldlM
    (fun (p : AdjList × AdjList) n => do
      let node_id ← n.id
      let og := ensureKey p.1 node_id
      let ic := ensureKey p.2 node_id
      n.edgesList.foldlM
        (fun (p : AdjList × AdjList) e => do
          let target ← e.target
          pure (dpAppend p.1 node_id target, dpAppend p.2 target node_id))
        (og, ic))
    ([], [])

/-! ## Emitters -/

/-- One value of the index.json mapping. -/
structure IndexRec where
  label : String
  type_ : String
  app : String
  owner : String
  isolated : Bool
deriving DecidableEq, Repr

/-- The index.json record emitted for one node. has_incoming embeds
bool(reverse_lookup.get(node_id)): false for a missing key or an empty
set. -/
def indexRecFor (reverse_lookup : List (String × Finset String))
    (node : RawNode) : IndexRec :=
  let has_edges := !node.edgesList.isEmpty
  let has_incoming :=
    ((dictLookup reverse_lookup (node.id.getD "")).getD ∅) ≠ ∅
  { label := node.label.getD ""
    type_ := node.type_.getD ""
    app := node.app.getD ""
    owner := node.owner.getD ""
    isolated := !has_edges && !(decide has_incoming) }

/-- generate_index_json. Runs on validated nodes only, where every required
key is present; required-key access is embedded with a default that
validation proves unreachable. -/
def generate_index_json (nodes : List RawNode)
    (reverse_lookup : List (String × Finset String)) :
    List (String × IndexRec) :=
  nodes.foldl
    (fun index node =>
      dictInsert index (node.id.getD "") (indexRecFor reverse_lookup node))
    []

/-- Pure form of the first phase of build_reverse_lookup (the dict
comprehension seeding every id with an empty set), for use on inputs whose
id keys are all present. -/
def rlInit (nodes : List RawNode) : List (String × Finset String) :=
  nodes.foldl (fun d n => dictInsert d (n.id.getD "") ∅) []

/-- Pure form of the per-edge additions of build_reverse_lookup for one
node: for each edge whose target is a known key, add the node id to the
target's set. -/
def rlAddEdges (node_id : String) (es : List RawEdge)
    (d : List (String × Finset String)) : List (String × Finset String) :=
  es.foldl
    (fun d e =>
      let target := e.target.getD ""
      if dictContains d target then dictModify d target (insert node_id)
      else d)
    d

/-- Pure form of build_reverse_lookup on inputs whose id and target keys
are all present. -/
def rlPure (nodes : List RawNode) : List (String × Finset String) :=
  nodes.foldl (fun d n => rlAddEdges (n.id.getD "") n.edgesList d)
    (rlInit nodes)

/-- The set of ids of nodes holding at least one edge whose target is k. -/
def refSet (nodes : List RawNode) (k : String) : Finset String :=
  ((nodes.filter
      (fun m => m.edgesList.any (fun e => e.target.getD "" = k))).map
    (fun n => n.id.getD "")).toFinset

/-- One element of the nodes array of graph.json. An edge dict with source
and target keys is embedded as the pair (source, target). -/
structure GraphNode where
  id : String
  label : String
  type_ : String
  app : String
  owner : String
  last_modified : String
  edges : List (String × String)
deriving DecidableEq, Repr

/-- graph.json content. -/
structure GraphJson where
  version : String
  nodes : List GraphNode
deriving DecidableEq, Repr

/-- The graph.json record emitted for one node: identifying fields plus the
full transitive closure edge set. -/
def graphNodeFor (outgoing incoming : AdjList) (node : RawNode) : GraphNode :=
  { id := node.id.getD ""
    label := node.label.getD ""
    type_ := node.type_.getD ""
    app := node.app.getD ""
    owner := node.owner.getD ""
    last_modified := node.last_modified.getD ""
    edges := collect_all_edges_for_node (node.id.getD "") outgoing incoming }

/-- generate_graph_json: per node, identifying fields plus the full
transitive closure edge set. -/
def generate_graph_json (nodes : List RawNode)
    (outgoing incoming : AdjList) : GraphJson :=
  { version := "1.0.0"
    nodes := nodes.map (graphNodeFor outgoing incoming) }

/-- One per-node object file. -/
structure ObjectJson where
  id : String
  label : String
  type_ : String
  app : String
  owner : String
  last_modified : String
  spl_code : Option String
  upstream_count : Nat
  downstream_count : Nat
deriving DecidableEq, Repr

/-- generate_object_json. -/
def generate_object_json (node : RawNode)
    (reverse_lookup : List (String × Finset String)) : ObjectJson :=
  let node_id := node.id.getD ""
  { id := node_id
    label := node.label.getD ""
    type_ := node.type_.getD ""
    app := node.app.getD ""
    owner := node.owner.getD ""
    last_modified := node.last_modified.getD ""
    spl_code := node.spl_code
    upstream_count := ((dictLookup reverse_lookup node_id).getD ∅).card
    downstream_count := node.edgesList.length }

/-- The data computed and written by a successful run of main. -/
structure PipelineOutput where
  index : List (String × IndexRec)
  graph : GraphJson
  objects : List ObjectJson
deriving DecidableEq

/-- The post-load portion of main: validate, and only when the error list is
empty build the derived structures and emit the three artifacts. A non-empty
error list exits with the errors and writes nothing. The fallthrough branch
is unreachable on validated input (validation guarantees every id and target
key the builders subscript is present). -/
def runPipeline (nodes : List RawNode) : Except (List VError) PipelineOutput :=
  let errors := validate_nodes nodes
  if errors.isEmpty then
    match build_reverse_lookup nodes, build_graph_structures nodes with
    | some reverse_lookup, some (outgoing, incoming) =>
        .ok { index := generate_index_json nodes reverse_lookup
              graph := generate_graph_json nodes outgoing incoming
              objects := nodes.map (fun n => generate_object_json n reverse_lookup) }
    | _, _ => .error errors
  else
    .error errors

/-! ## Reachability (specification side of claim C1) -/

/-- Reachability from a start node by repeatedly following the adjacency
structure (reflexive-transitive). -/
inductive Reaches (adj : AdjList) (start : String) : String → Prop
  | refl : Reaches adj start start
  | step {b c : String} : Reaches adj start b → c ∈ dictGet adj b →
      Reaches adj start c

/-! ## Concrete inputs used to instantiate the theorems -/

/-- A small valid node list: alpha-app-index references beta-app-index. -/
def demoNodes : List RawNode :=
  [ { id := some "alpha-app-index", label := some "Alpha",
      type_ := some "index", app := some "app", owner := some "owner",
      last_modified := some "2024-01-01",
      edges := some [{ target := some "beta-app-index" }], spl_code := none },
    { id := some "beta-app-index", label := some "Beta",
      type_ := some "index", app := some "app", owner := some "owner",
      last_modified := some "2024-01-01",
      edges := none, spl_code := none } ]

/-- The outgoing adjacency structure built from demoNodes. -/
def demoOut : AdjList :=
  [("alpha-app-index", ["beta-app-index"]), ("beta-app-index", [])]

/-- The incoming adjacency structure built from demoNodes. -/
def demoInc : AdjList :=
  [("alpha-app-index", []), ("beta-app-index", ["alpha-app-index"])]

/-- A node list that fails validation: a single empty record. -/
def badNodes : List RawNode :=
  [ { id := none, label := none, type_ := none, app := none, owner := none,
      last_modified := none, edges := none, spl_code := none } ]

/-! ## BFS loop lemmas -/

theorem bfsLoop_queue_nil (adj : AdjList) (direction : String) (s : BfsState)
    (trace : List String) (h : s.queue = []) :
    bfsLoop adj direction s trace = (s, trace) := by
  rw [bfsLoop.eq_def]
  split
  · rfl
  · rename_i current rest heq
    rw [h] at heq
    cases heq

theorem bfsLoop_queue_cons (adj : AdjList) (direction : String) (s : BfsState)
    (trace : List String) (current : String) (rest : List String)
    (h : s.queue = current :: rest) :
    bfsLoop adj direction s trace =
      bfsLoop adj direction
        (processNeighbors direction current (dictGet adj current)
          { s with queue := rest }) (trace ++ [current]) := by
  rw [bfsLoop.eq_def]
  split
  · rename_i heq
    rw [h] at heq
    cases heq
  · rename_i c r heq
    rw [h] at heq
    cases heq
    rfl

theorem pn_visitedNodes (direction current : String) (ns : List String) :
    ∀ s : BfsState, (processNeighbors direction current ns s).visitedNodes
      = s.visitedNodes ∪ ns.toFinset := by
  induction ns with
  | nil => intro s; simp [processNeighbors]
  | cons neighbor rest ih =>
      intro s
      simp only [processNeighbors]
      set edge := orientEdge direction current neighbor with hedge
      set s1 : BfsState :=
        if edge ∈ s.visitedEdges then s
        else { s with edges := s.edges ++ [edge],
                      visitedEdges := insert edge s.visitedEdges } with hs1
      have hs1vn : s1.visitedNodes = s.visitedNodes := by
        by_cases h : edge ∈ s.visitedEdges <;> simp [hs1, h]
      by_cases hn : neighbor ∈ s1.visitedNodes
      · rw [if_pos hn, ih, hs1vn]
        rw [hs1vn] at hn
        ext x
        simp only [Finset.mem_union, List.mem_toFinset, List.toFinset_cons,
          Finset.mem_insert]
        constructor
        · tauto
        · rintro (h | h | h)
          · tauto
          · subst h; exact Or.inl hn
          · tauto
      · rw [if_neg hn, ih]
        simp only [hs1vn]
        ext x
        simp only [Finset.mem_union, Finset.mem_insert, List.mem_toFinset,
          List.toFinset_cons]
        tauto

theorem pn_visitedEdges (direction current : String) (ns : List String) :
    ∀ s : BfsState, (processNeighbors direction current ns s).visitedEdges
      = s.visitedEdges ∪ (ns.map (orientEdge direction current)).toFinset := by
  induction ns with
  | nil => intro s; simp [processNeighbors]
  | cons neighbor rest ih =>
      intro s
      simp only [processNeighbors]
      set edge := orientEdge direction current neighbor with hedge
      set s1 : BfsState :=
        if edge ∈ s.visitedEdges then s
        else { s with edges := s.edges ++ [edge],
                      visitedEdges := insert edge s.visitedEdges } with hs1
      have hs1ve : s1.visitedEdges = insert edge s.visitedEdges := by
        by_cases h : edge ∈ s.visitedEdges
        · simp [hs1, h, Finset.insert_eq_self.mpr h]
        · simp [hs1, h]
      have hs2 : ∀ s2 : BfsState,
          (if neighbor ∈ s1.visitedNodes then s1
           else { s1 with visitedNodes := insert neighbor s1.visitedNodes,
                          queue := s1.queue ++ [neighbor] }).visitedEdges
            = s1.visitedEdges := by
        intro _
        by_cases h : neighbor ∈ s1.visitedNodes <;> simp [h]
      by_cases hn : neighbor ∈ s1.visitedNodes
      · rw [if_pos hn, ih, hs1ve]
        ext x
        simp only [Finset.mem_union, Finset.mem_insert, List.mem_toFinset,
          List.map_cons, List.toFinset_cons]
        tauto
      · rw [if_neg hn, ih]
        simp only [hs1ve]
        ext x
        simp only [Finset.mem_union, Finset.mem_insert, List.mem_toFinset,
          List.map_cons, List.toFinset_cons]
        tauto

theorem pn_edges_link (direction current : String) (ns : List String) :
    ∀ s : BfsState, s.visitedEdges = s.edges.toFinset →
      (processNeighbors direction current ns s).visitedEdges
        = (processNeighbors direction current ns s).edges.toFinset := by
  induction ns with
  | nil => intro s h; simpa [processNeighbors] using h
  | cons neighbor rest ih =>
      intro s h
      simp only [processNeighbors]
      set edge := orientEdge direction current neighbor with hedge
      set s1 : BfsState :=
        if edge ∈ s.visitedEdges then s
        else { s with edges := s.edges ++ [edge],
                      visitedEdges := insert edge s.visitedEdges } with hs1
      have hlink1 : s1.visitedEdges = s1.edges.toFinset := by
        by_cases hc : edge ∈ s.visitedEdges
        · simpa [hs1, hc] using h
        · rw [hs1, if_neg hc]
          simp only []
          rw [h]
          simp only [List.toFinset_append, List.toFinset_cons,
            List.toFinset_nil]
          ext x
          simp
          tauto
      by_cases hn : neighbor ∈ s1.visitedNodes
      · rw [if_pos hn]
        exact ih s1 hlink1
      · rw [if_neg hn]
        exact ih _ hlink1

/-- The invariant of the BFS loop of collect_transitive_edges, for start
node N: recorded edges are real adjacency edges at reachable nodes, visited
nodes are reachable, queued nodes are visited, visited nodes no longer in
the queue are fully processed, and the visited-edge set tracks the recorded
edge list. -/
structure BfsInvariant (adj : AdjList) (direction N : String) (s : BfsState) :
    Prop where
  sound : ∀ e ∈ s.edges, ∃ c n, Reaches adj N c ∧ n ∈ dictGet adj c ∧
      e = orientEdge direction c n
  visited_reach : ∀ x ∈ s.visitedNodes, Reaches adj N x
  queue_visited : ∀ x ∈ s.queue, x ∈ s.visitedNodes
  processed : ∀ x ∈ s.visitedNodes, x ∉ s.queue →
      ∀ n ∈ dictGet adj x,
        orientEdge direction x n ∈ s.visitedEdges ∧ n ∈ s.visitedNodes
  edges_link : s.visitedEdges = s.edges.toFinset
  start_mem : N ∈ s.visitedNodes

theorem bfsInvariant_step (adj : AdjList) (direction N current : String)
    (s : BfsState) (rest : List String)
    (hq : s.queue = current :: rest)
    (hinv : BfsInvariant adj direction N s) :
    BfsInvariant adj direction N
      (processNeighbors direction current (dictGet adj current)
        { s with queue := rest }) := by
  obtain ⟨ha, hb, hc, hd, he, hf⟩ := hinv
  set ns := dictGet adj current with hns
  set s0 : BfsState := { s with queue := rest } with hs0
  obtain ⟨dl, hd1, hd2, hd3, hd4⟩ :=
    processNeighbors_spec direction current ns s0
  set s' := processNeighbors direction current ns s0 with hs'
  have hs0vn : s0.visitedNodes = s.visitedNodes := rfl
  have hs0q : s0.queue = rest := rfl
  have hvn : s'.visitedNodes = s.visitedNodes ∪ ns.toFinset := by
    rw [hs', pn_visitedNodes]
  have hve : s'.visitedEdges
      = s.visitedEdges ∪ (ns.map (orientEdge direction current)).toFinset := by
    rw [hs', pn_visitedEdges]
  have hlink : s'.visitedEdges = s'.edges.toFinset := by
    rw [hs']
    exact pn_edges_link direction current ns s0 he
  have hcur_vis : current ∈ s.visitedNodes := hc current (by rw [hq]; simp)
  have hcur_reach : Reaches adj N current := hb current hcur_vis
  refine ⟨?_, ?_, ?_, ?_, hlink, ?_⟩
  · intro e hee
    have : e ∈ s'.visitedEdges := by
      rw [hlink]
      exact List.mem_toFinset.mpr hee
    rw [hve] at this
    rcases Finset.mem_union.mp this with h | h
    · rw [he] at h
      exact ha e (List.mem_toFinset.mp h)
    · rw [List.mem_toFinset] at h
      rcases List.mem_map.mp h with ⟨n, hnmem, hne⟩
      exact ⟨current, n, hcur_reach, hnmem, hne.symm⟩
  · intro x hx
    rw [hvn] at hx
    rcases Finset.mem_union.mp hx with h | h
    · exact hb x h
    · exact Reaches.step hcur_reach (List.mem_toFinset.mp h)
  · intro x hx
    rw [hd2, hs0q] at hx
    rcases List.mem_append.mp hx with h | h
    · have : x ∈ s.queue := by rw [hq]; exact List.mem_cons_of_mem _ h
      rw [hvn]
      exact Finset.mem_union_left _ (hc x this)
    · rw [hd1, hs0vn]
      exact Finset.mem_union_right _ (List.mem_toFinset.mpr h)
  · intro x hx hxq n hn
    by_cases hxc : x = current
    · subst hxc
      constructor
      · rw [hve]
        exact Finset.mem_union_right _
          (List.mem_toFinset.mpr (List.mem_map.mpr ⟨n, hn, rfl⟩))
      · rw [hvn]
        exact Finset.mem_union_right _ (List.mem_toFinset.mpr hn)
    · have hxvn : x ∈ s.visitedNodes := by
        by_contra hcon
        rw [hd1, hs0vn] at hx
        rcases Finset.mem_union.mp hx with h | h
        · exact hcon h
        · have : x ∈ dl := List.mem_toFinset.mp h
          have : x ∈ s'.queue := by
            rw [hd2]
            exact List.mem_append_right _ this
          exact hxq this
      have hxnq : x ∉ s.queue := by
        rw [hq]
        intro hcon
        rcases List.mem_cons.mp hcon with h | h
        · exact hxc h
        · have : x ∈ s'.queue := by
            rw [hd2, hs0q]
            exact List.mem_append_left _ h
          exact hxq this
      obtain ⟨h1, h2⟩ := hd x hxvn hxnq n hn
      constructor
      · rw [hve]
        exact Finset.mem_union_left _ h1
      · rw [hvn]
        exact Finset.mem_union_left _ h2
  · rw [hvn]
    exact Finset.mem_union_left _ hf

theorem bfsLoop_invariant (adj : AdjList) (direction N : String) :
    ∀ (s : BfsState) (trace : List String),
      BfsInvariant adj direction N s →
      BfsInvariant adj direction N (bfsLoop adj direction s trace).1 ∧
        (bfsLoop adj direction s trace).1.queue = [] := by
  intro s trace
  induction s, trace using bfsLoop.induct adj direction with
  | case1 s trace hq =>
      intro hinv
      rw [bfsLoop_queue_nil adj direction s trace hq]
      exact ⟨hinv, hq⟩
  | case2 s trace current rest hq ih =>
      intro hinv
      rw [bfsLoop_queue_cons adj direction s trace current rest hq]
      exact ih (bfsInvariant_step adj direction N current s rest hq hinv)

theorem bfs_reachable_visited (adj : AdjList) (direction N : String)
    (s : BfsState) (hinv : BfsInvariant adj direction N s)
    (hq : s.queue = []) :
    ∀ c, Reaches adj N c → c ∈ s.visitedNodes := by
  intro c hreach
  induction hreach with
  | refl => exact hinv.start_mem
  | @step b c' hr hmem ih =>
      exact (hinv.processed b ih (by rw [hq]; simp) c' hmem).2

theorem bfsInit_invariant (adj : AdjList) (direction start_id : String) :
    BfsInvariant adj direction start_id (bfsInit start_id) := by
  refine ⟨?_, ?_, ?_, ?_, ?_, ?_⟩
  · intro e he; simp [bfsInit] at he
  · intro x hx
    simp [bfsInit] at hx
    subst hx
    exact Reaches.refl
  · intro x hx
    simp [bfsInit] at hx
    simp [bfsInit, hx]
  · intro x hx hxq
    simp [bfsInit] at hx
    subst hx
    simp [bfsInit] at hxq
  · simp [bfsInit]
  · simp [bfsInit]

/-- Master characterization of collect_transitive_edges: the recorded pairs
are exactly the orientations of real adjacency edges at nodes reachable
from the start node. -/
theorem collect_transitive_edges_spec (start_id : String) (adj : AdjList)
    (direction : String) (e : String × String) :
    e ∈ collect_transitive_edges start_id adj direction ↔
      ∃ c n, Reaches adj start_id c ∧ n ∈ dictGet adj c ∧
        e = orientEdge direction c n := by
  obtain ⟨hinv, hq⟩ :=
    bfsLoop_invariant adj direction start_id (bfsInit start_id) []
      (bfsInit_invariant adj direction start_id)
  constructor
  · intro he
    exact hinv.sound e he
  · rintro ⟨c, n, hr, hn, rfl⟩
    have hc : c ∈ (bfsLoop adj direction (bfsInit start_id) []).1.visitedNodes :=
      bfs_reachable_visited adj direction start_id _ hinv hq c hr
    have h1 := (hinv.processed c hc (by rw [hq]; simp) n hn).1
    rw [hinv.edges_link] at h1
    exact List.mem_toFinset.mp h1

theorem bfsLoop_visited_mono (adj : AdjList) (direction : String) :
    ∀ (s : BfsState) (trace : List String),
      s.visitedNodes ⊆ (bfsLoop adj direction s trace).1.visitedNodes := by
  intro s trace
  induction s, trace using bfsLoop.induct adj direction with
  | case1 s trace hq =>
      rw [bfsLoop_queue_nil adj direction s trace hq]
  | case2 s trace current rest hq ih =>
      rw [bfsLoop_queue_cons adj direction s trace current rest hq]
      refine subset_trans ?_ ih
      rw [pn_visitedNodes]
      exact Finset.subset_union_left

theorem bfsLoop_trace_nodup (adj : AdjList) (direction : String) :
    ∀ (s : BfsState) (trace : List String),
      (trace ++ s.queue).Nodup →
      (∀ x ∈ trace ++ s.queue, x ∈ s.visitedNodes) →
      (bfsLoop adj direction s trace).2.Nodup := by
  intro s trace
  induction s, trace using bfsLoop.induct adj direction with
  | case1 s trace hq =>
      intro h1 _
      rw [bfsLoop_queue_nil adj direction s trace hq]
      rw [hq] at h1
      simpa using h1
  | case2 s trace current rest hq ih =>
      intro h1 h2
      rw [bfsLoop_queue_cons adj direction s trace current rest hq]
      obtain ⟨dl, hd1, hd2, hd3, hd4⟩ :=
        processNeighbors_spec direction current (dictGet adj current)
          { s with queue := rest }
      apply ih
      · rw [hd2]
        have heq : (trace ++ [current]) ++
            (({ s with queue := rest } : BfsState).queue ++ dl)
            = (trace ++ (current :: rest)) ++ dl := by
          simp
        rw [heq]
        apply List.Nodup.append
        · rw [← hq]
          exact h1
        · exact hd3
        · intro x hx hxdl
          have hvis : x ∈ s.visitedNodes := h2 x (by rw [hq]; exact hx)
          exact (hd4 x hxdl).2 hvis
      · intro x hx
        rw [hd1]
        rw [hd2] at hx
        have hx' : x ∈ (trace ++ (current :: rest)) ++ dl := by
          have heq : (trace ++ [current]) ++
              (({ s with queue := rest } : BfsState).queue ++ dl)
              = (trace ++ (current :: rest)) ++ dl := by
            simp
          rw [← heq]
          exact hx
        rcases List.mem_append.mp hx' with h | h
        · exact Finset.mem_union_left _ (h2 x (by rw [hq]; exact h))
        · exact Finset.mem_union_right _ (List.mem_toFinset.mpr h)

theorem bfsLoop_visited_subset (adj : AdjList) (direction : String)
    (U : Finset String) :
    ∀ (s : BfsState) (trace : List String),
      s.visitedNodes ⊆ adjUniverse adj ∪ U →
      (bfsLoop adj direction s trace).1.visitedNodes ⊆ adjUniverse adj ∪ U := by
  intro s trace
  induction s, trace using bfsLoop.induct adj direction with
  | case1 s trace hq =>
      intro h
      rw [bfsLoop_queue_nil adj direction s trace hq]
      exact h
  | case2 s trace current rest hq ih =>
      intro h
      rw [bfsLoop_queue_cons adj direction s trace current rest hq]
      apply ih
      rw [pn_visitedNodes]
      apply Finset.union_subset h
      intro x hx
      apply Finset.mem_union_left
      exact List.mem_toFinset.mpr
        (dictGet_subset_adjNodes adj current x (List.mem_toFinset.mp hx))

/-! ## Claim theorems -/

/-- C1: for every adjacency structure (in particular the outgoing structure
of a validated node list) and start node N, the downstream closure computed
by collect_transitive_edges records, as a set, exactly the edges (u, v)
with u reachable from N by following the structure (including u = N);
symmetrically the upstream closure over the incoming structure records
exactly the edges (u, v) with v reachable from N by following the incoming
structure. -/
theorem claim_C1 (outgoing incoming : AdjList) (N u v : String) :
    ((u, v) ∈ collect_transitive_edges N outgoing "downstream" ↔
      Reaches outgoing N u ∧ v ∈ dictGet outgoing u) ∧
    ((u, v) ∈ collect_transitive_edges N incoming "upstream" ↔
      Reaches incoming N v ∧ u ∈ dictGet incoming v) := by
  constructor
  · rw [collect_transitive_edges_spec]
    constructor
    · rintro ⟨c, n, hr, hn, he⟩
      rw [orientEdge, if_pos rfl] at he
      cases he
      exact ⟨hr, hn⟩
    · rintro ⟨hr, hn⟩
      exact ⟨u, v, hr, hn, by rw [orientEdge, if_pos rfl]⟩
  · rw [collect_transitive_edges_spec]
    have hdir : ("upstream" : String) ≠ "downstream" := by decide
    constructor
    · rintro ⟨c, n, hr, hn, he⟩
      rw [orientEdge, if_neg hdir] at he
      cases he
      exact ⟨hr, hn⟩
    · rintro ⟨hr, hn⟩
      exact ⟨v, u, hr, hn, by rw [orientEdge, if_neg hdir]⟩

/-- C2: every pair recorded by collect_transitive_edges is the orientation
of an actual (current, neighbor) adjacency step: downstream records
(current, neighbor) and upstream records (neighbor, current), regardless of
dequeue order. -/
theorem claim_C2 (start_id : String) (adj : AdjList) (direction : String)
    (e : String × String)
    (he : e ∈ collect_transitive_edges start_id adj direction) :
    ∃ current neighbor, neighbor ∈ dictGet adj current ∧
      (direction = "downstream" → e = (current, neighbor)) ∧
      (direction = "upstream" → e = (neighbor, current)) := by
  obtain ⟨c, n, _, hn, he⟩ := (collect_transitive_edges_spec _ _ _ _).mp he
  refine ⟨c, n, hn, ?_, ?_⟩
  · intro hdir
    rw [he, orientEdge, if_pos hdir]
  · intro hdir
    rw [he, orientEdge, if_neg (by rw [hdir]; decide)]

theorem claim_C2_witness :
    ("a", "b") ∈ collect_transitive_edges "a" [("a", ["b"])] "downstream" ∧
    ∃ current neighbor, neighbor ∈ dictGet [("a", ["b"])] current ∧
      (("downstream" : String) = "downstream" →
        (("a", "b") : String × String) = (current, neighbor)) ∧
      (("downstream" : String) = "upstream" →
        (("a", "b") : String × String) = (neighbor, current)) := by
  have hmem : ("a", "b") ∈
      collect_transitive_edges "a" [("a", ["b"])] "downstream" := by
    simp [collect_transitive_edges, bfsLoop, processNeighbors, orientEdge,
      dictGet, bfsInit]
  exact ⟨hmem, claim_C2 "a" [("a", ["b"])] "downstream" ("a", "b") hmem⟩

/-- C3: the BFS of collect_transitive_edges terminates on every finite
adjacency structure (bfsLoop is a total function, defined by well-founded
recursion on unvisited-node count plus queue length); the visited-node set
only grows, the dequeue trace (one entry per frontier processing; queue
entries are enqueued exactly once and all are eventually dequeued) has no
duplicates, and the visited-node count is bounded by the node count of the
adjacency structure plus one for the start node. -/
theorem claim_C3 (adj : AdjList) (direction start_id : String) :
    (∀ (s : BfsState) (trace : List String),
        s.visitedNodes ⊆ (bfsLoop adj direction s trace).1.visitedNodes) ∧
    (bfsLoop adj direction (bfsInit start_id) []).2.Nodup ∧
    (bfsLoop adj direction (bfsInit start_id) []).1.visitedNodes.card
      ≤ (adjUniverse adj).card + 1 := by
  refine ⟨bfsLoop_visited_mono adj direction, ?_, ?_⟩
  · apply bfsLoop_trace_nodup
    · simp [bfsInit]
    · intro x hx
      simp [bfsInit] at hx
      simp [bfsInit, hx]
  · have hsub : (bfsLoop adj direction (bfsInit start_id) []).1.visitedNodes
        ⊆ adjUniverse adj ∪ {start_id} := by
      apply bfsLoop_visited_subset
      intro x hx
      simp [bfsInit] at hx
      simp [hx]
    calc (bfsLoop adj direction (bfsInit start_id) []).1.visitedNodes.card
        ≤ (adjUniverse adj ∪ {start_id}).card := Finset.card_le_card hsub
      _ ≤ (adjUniverse adj).card + ({start_id} : Finset String).card :=
          Finset.card_union_le _ _
      _ = (adjUniverse adj).card + 1 := by simp

/-- C5: a node whose only outgoing entry is a self-loop yields exactly the
single recorded pair (N, N) in its downstream closure: no duplicates and no
unbounded output. -/
theorem claim_C5 (adj : AdjList) (N : String) (h : dictGet adj N = [N]) :
    collect_transitive_edges N adj "downstream" = [(N, N)] := by
  unfold collect_transitive_edges
  rw [bfsLoop_queue_cons adj "downstream" (bfsInit N) [] N [] rfl]
  have hstate : processNeighbors "downstream" N (dictGet adj N)
      { bfsInit N with queue := [] }
      = { edges := [(N, N)], visitedEdges := {(N, N)},
          visitedNodes := {N}, queue := [] } := by
    rw [h]
    simp [processNeighbors, orientEdge, bfsInit]
  rw [hstate]
  rw [bfsLoop_queue_nil _ _ _ _ rfl]

theorem claim_C5_witness :
    dictGet [("a", ["a"])] "a" = ["a"] ∧
    collect_transitive_edges "a" [("a", ["a"])] "downstream" = [("a", "a")] :=
  ⟨by decide, claim_C5 [("a", ["a"])] "a" (by decide)⟩


/-! ## Sorting lemmas and the emitter claims -/

theorem sortEdgePairs_perm (l : List (String × String)) :
    (sortEdgePairs l).Perm l :=
  List.perm_insertionSort edgeLe l

theorem sortEdgePairs_sorted (l : List (String × String)) :
    List.Sorted edgeLe (sortEdgePairs l) :=
  List.sorted_insertionSort edgeLe l

theorem sortEdgePairs_toFinset (l : List (String × String)) :
    (sortEdgePairs l).toFinset = l.toFinset := by
  ext x
  simp only [List.mem_toFinset]
  exact (sortEdgePairs_perm l).mem_iff

theorem sortEdgePairs_eq_of_perm (l₁ l₂ : List (String × String))
    (h : l₁.Perm l₂) : sortEdgePairs l₁ = sortEdgePairs l₂ :=
  List.eq_of_perm_of_sorted
    (((sortEdgePairs_perm l₁).trans h).trans (sortEdgePairs_perm l₂).symm)
    (sortEdgePairs_sorted l₁) (sortEdgePairs_sorted l₂)

theorem collect_all_edges_for_node_spec (node_id : String)
    (outgoing incoming : AdjList) :
    (collect_all_edges_for_node node_id outgoing incoming).toFinset =
        (collect_transitive_edges node_id outgoing "downstream").toFinset ∪
          (collect_transitive_edges node_id incoming "upstream").toFinset ∧
      (collect_all_edges_for_node node_id outgoing incoming).Nodup ∧
      List.Sorted edgeLe (collect_all_edges_for_node node_id outgoing incoming) := by
  unfold collect_all_edges_for_node
  refine ⟨?_, ?_, sortEdgePairs_sorted _⟩
  · ext x
    simp only [List.mem_toFinset, Finset.mem_union]
    rw [(sortEdgePairs_perm _).mem_iff, List.mem_dedup, List.mem_append]
  · exact ((sortEdgePairs_perm _).nodup_iff).mpr (List.nodup_dedup _)

/-- C4: for every node of a validated node list, the edges list emitted for
it in graph.json is, as a set, the union of its downstream closure over the
outgoing structure and its upstream closure over the incoming structure,
has no duplicate pair, and is sorted lexicographically by (source, target)
(hence independent of input edge order and traversal scheduling). -/
theorem claim_C4 (nodes : List RawNode)
    (hval : validate_nodes nodes = [])
    (outgoing incoming : AdjList)
    (hbuild : build_graph_structures nodes = some (outgoing, incoming))
    (i : Nat) (hi : i < nodes.length) :
    ∃ rec : GraphNode,
      ((generate_graph_json nodes outgoing incoming).nodes)[i]? = some rec ∧
      rec.id = (nodes.get ⟨i, hi⟩).id.getD "" ∧
      rec.edges.toFinset =
        (collect_transitive_edges rec.id outgoing "downstream").toFinset ∪
          (collect_transitive_edges rec.id incoming "upstream").toFinset ∧
      rec.edges.Nodup ∧ List.Sorted edgeLe rec.edges := by
  refine ⟨graphNodeFor outgoing incoming (nodes.get ⟨i, hi⟩), ?_, rfl, ?_⟩
  · show (nodes.map (graphNodeFor outgoing incoming))[i]? = _
    rw [List.getElem?_map, List.getElem?_eq_getElem hi]
    rfl
  · exact collect_all_edges_for_node_spec
      ((nodes.get ⟨i, hi⟩).id.getD "") outgoing incoming

theorem claim_C4_witness :
    validate_nodes demoNodes = [] ∧
    build_graph_structures demoNodes = some (demoOut, demoInc) ∧
    ∃ rec : GraphNode,
      ((generate_graph_json demoNodes demoOut demoInc).nodes)[0]? = some rec ∧
      rec.id = (demoNodes.get ⟨0, by decide⟩).id.getD "" ∧
      rec.edges.toFinset =
        (collect_transitive_edges rec.id demoOut "downstream").toFinset ∪
          (collect_transitive_edges rec.id demoInc "upstream").toFinset ∧
      rec.edges.Nodup ∧ List.Sorted edgeLe rec.edges :=
  ⟨by decide, by decide,
    claim_C4 demoNodes (by decide) demoOut demoInc (by decide) 0 (by decide)⟩

/-- C8: whenever validation returns a non-empty error list, the run aborts
with those errors before graph construction: the pipeline produces no
output values at all (the error branch of runPipeline models sys.exit(1)
before any file is written). -/
theorem claim_C8 (nodes : List RawNode)
    (h : validate_nodes nodes ≠ []) :
    runPipeline nodes = .error (validate_nodes nodes) := by
  unfold runPipeline
  simp only []
  rw [if_neg]
  intro hcon
  exact h (List.isEmpty_iff.mp hcon)

theorem claim_C8_witness :
    validate_nodes badNodes ≠ [] ∧
    runPipeline badNodes = .error (validate_nodes badNodes) :=
  ⟨by decide, claim_C8 badNodes (by decide)⟩

/-- C9: the generation pipeline is deterministic. The emitters are pure
functions, so identical input node lists give identical index.json and
graph.json values; moreover the serialization of a closure edge set is
invariant under the enumeration order of the set (any permutation of the
collected edges sorts to the same list), so no set-iteration nondeterminism
can reach the output. -/
theorem claim_C9 :
    (∀ (nodes₁ nodes₂ : List RawNode)
        (rl : List (String × Finset String)) (outgoing incoming : AdjList),
      nodes₁ = nodes₂ →
        generate_index_json nodes₁ rl = generate_index_json nodes₂ rl ∧
        generate_graph_json nodes₁ outgoing incoming
          = generate_graph_json nodes₂ outgoing incoming) ∧
    (∀ l₁ l₂ : List (String × String), l₁.Perm l₂ →
      sortEdgePairs l₁ = sortEdgePairs l₂) := by
  constructor
  · intro nodes₁ nodes₂ rl outgoing incoming h
    rw [h]
    exact ⟨rfl, rfl⟩
  · exact sortEdgePairs_eq_of_perm

theorem claim_C9_witness :
    (generate_index_json demoNodes [] = generate_index_json demoNodes [] ∧
      generate_graph_json demoNodes demoOut demoInc
        = generate_graph_json demoNodes demoOut demoInc) ∧
    sortEdgePairs [("b", "c"), ("a", "b")]
      = sortEdgePairs [("a", "b"), ("b", "c")] :=
  ⟨claim_C9.1 demoNodes demoNodes [] demoOut demoInc rfl,
    claim_C9.2 [("b", "c"), ("a", "b")] [("a", "b"), ("b", "c")] (by decide)⟩

/-! ## Validator lemmas -/

theorem mem_nodeErrors_missingField (ids seen : Finset String) (i : Nat)
    (n : RawNode) (f : String) (hf : f ∈ requiredFields)
    (hnp : fieldPresent n f = false) :
    VError.missingField i f ∈ nodeErrors ids seen i n := by
  have hmem : VError.missingField i f ∈
      (requiredFields.filter (fun g => !fieldPresent n g)).map
        (VError.missingField i) :=
    List.mem_map.mpr ⟨f, List.mem_filter.mpr ⟨hf, by simp [hnp]⟩, rfl⟩
  cases hid : n.id with
  | none => simpa [nodeErrors, hid] using hmem
  | some node_id =>
      simp only [nodeErrors, hid]
      exact List.mem_append.mpr (Or.inl (List.mem_append.mpr (Or.inl
        (List.mem_append.mpr (Or.inl (List.mem_append.mpr (Or.inl hmem)))))))

theorem mem_nodeErrors_dup (ids seen : Finset String) (i : Nat)
    (n : RawNode) (node_id : String) (hid : n.id = some node_id)
    (hseen : node_id ∈ seen) :
    VError.duplicateId node_id ∈ nodeErrors ids seen i n := by
  simp only [nodeErrors, hid, if_pos hseen]
  refine List.mem_append.mpr (Or.inl (List.mem_append.mpr (Or.inl
    (List.mem_append.mpr (Or.inl (List.mem_append.mpr (Or.inr ?_)))))))
  simp

theorem mem_nodeErrors_fmt (ids seen : Finset String) (i : Nat)
    (n : RawNode) (node_id : String) (hid : n.id = some node_id)
    (hfmt : validate_id_format node_id = false) :
    VError.badIdFormat node_id ∈ nodeErrors ids seen i n := by
  simp only [nodeErrors, hid, hfmt]
  refine List.mem_append.mpr (Or.inl (List.mem_append.mpr (Or.inl
    (List.mem_append.mpr (Or.inr ?_)))))
  simp

theorem mem_nodeErrors_type (ids seen : Finset String) (i : Nat)
    (n : RawNode) (node_id t : String) (hid : n.id = some node_id)
    (ht : n.type_ = some t) (hbad : t ∉ validTypes) :
    VError.invalidType node_id t ∈ nodeErrors ids seen i n := by
  simp only [nodeErrors, hid, ht, if_neg hbad]
  refine List.mem_append.mpr (Or.inl (List.mem_append.mpr (Or.inr ?_)))
  simp

theorem mem_nodeErrors_of_edgeError (ids seen : Finset String) (i : Nat)
    (n : RawNode) (node_id : String) (err : VError)
    (hid : n.id = some node_id)
    (herr : err ∈ edgeErrorsFor ids node_id n.edgesList) :
    err ∈ nodeErrors ids seen i n := by
  simp only [nodeErrors, hid]
  exact List.mem_append.mpr (Or.inr herr)

theorem mem_edgeErrorsFor_none (ids : Finset String) (node_id : String) :
    ∀ (es : List RawEdge) (e : RawEdge), e ∈ es → e.target = none →
      VError.edgeMissingTarget node_id ∈ edgeErrorsFor ids node_id es := by
  intro es
  induction es with
  | nil => intro e he; simp at he
  | cons e' rest ih =>
      intro e he ht
      rcases List.mem_cons.mp he with h | h
      · subst h
        simp [edgeErrorsFor, ht]
      · simp only [edgeErrorsFor, List.foldr_cons]
        exact List.mem_append.mpr (Or.inr (ih e h ht))

theorem mem_edgeErrorsFor_dangling (ids : Finset String) (node_id t : String) :
    ∀ (es : List RawEdge) (e : RawEdge), e ∈ es → e.target = some t →
      t ∉ ids →
      VError.danglingTarget node_id t ∈ edgeErrorsFor ids node_id es := by
  intro es
  induction es with
  | nil => intro e he; simp at he
  | cons e' rest ih =>
      intro e he ht hna
      rcases List.mem_cons.mp he with h | h
      · subst h
        simp [edgeErrorsFor, ht, hna]
      · simp only [edgeErrorsFor, List.foldr_cons]
        exact List.mem_append.mpr (Or.inr (ih e h ht hna))

theorem validateLoop_mem (ids : Finset String) :
    ∀ (l : List RawNode) (i : Nat) (seen : Finset String) (k : Nat)
      (hk : k < l.length) (err : VError),
      err ∈ nodeErrors ids
        (seen ∪ ((l.take k).filterMap RawNode.id).toFinset) (i + k)
        (l.get ⟨k, hk⟩) →
      err ∈ validateLoop ids i seen l := by
  intro l
  induction l with
  | nil => intro i seen k hk; simp at hk
  | cons n rest ih =>
      intro i seen k hk err herr
      match k with
      | 0 =>
          simp only [List.take_zero, List.filterMap_nil, List.toFinset_nil,
            Finset.union_empty, Nat.add_zero, List.get] at herr
          simp only [validateLoop]
          exact List.mem_append.mpr (Or.inl herr)
      | Nat.succ k' =>
          simp only [validateLoop]
          refine List.mem_append.mpr (Or.inr ?_)
          have hk' : k' < rest.length := by
            simpa using Nat.lt_of_succ_lt_succ hk
          apply ih (i + 1) _ k' hk' err
          have hidx : i + 1 + k' = i + (k' + 1) := by omega
          rw [hidx]
          have hseen :
              (match n.id with
               | some node_id => insert node_id seen
               | none => seen) ∪ ((rest.take k').filterMap RawNode.id).toFinset
              = seen ∪
                (((n :: rest).take (k' + 1)).filterMap RawNode.id).toFinset := by
            cases hid : n.id with
            | none =>
                simp [List.take_succ_cons, List.filterMap_cons, hid]
            | some a =>
                simp only [List.take_succ_cons, List.filterMap_cons, hid,
                  List.toFinset_cons]
                ext x
                simp only [Finset.mem_union, Finset.mem_insert,
                  List.mem_toFinset]
                tauto
          rw [hseen]
          exact herr

/-- C6: validate_nodes returns the complete list of violations rather than
stopping at the first: every missing required field, duplicate id,
malformed id, invalid type, missing edge target, and dangling edge target
across all nodes appears in the returned list; and a node missing its id
contributes exactly its missing-field errors and is skipped for all further
per-node checks. -/
theorem claim_C6 (nodes : List RawNode) :
    (∀ (i : Nat) (hi : i < nodes.length) (f : String), f ∈ requiredFields →
      fieldPresent (nodes.get ⟨i, hi⟩) f = false →
      VError.missingField i f ∈ validate_nodes nodes) ∧
    (∀ (i j : Nat) (hi : i < nodes.length) (hj : j < nodes.length)
        (x : String), i < j → (nodes.get ⟨i, hi⟩).id = some x →
      (nodes.get ⟨j, hj⟩).id = some x →
      VError.duplicateId x ∈ validate_nodes nodes) ∧
    (∀ n ∈ nodes, ∀ x : String, n.id = some x →
      validate_id_format x = false →
      VError.badIdFormat x ∈ validate_nodes nodes) ∧
    (∀ n ∈ nodes, ∀ x t : String, n.id = some x → n.type_ = some t →
      t ∉ validTypes → VError.invalidType x t ∈ validate_nodes nodes) ∧
    (∀ n ∈ nodes, ∀ (x : String) (e : RawEdge), n.id = some x →
      e ∈ n.edgesList →
      (e.target = none →
        VError.edgeMissingTarget x ∈ validate_nodes nodes) ∧
      (∀ t : String, e.target = some t → t ∉ allIds nodes →
        VError.danglingTarget x t ∈ validate_nodes nodes)) ∧
    (∀ (ids seen : Finset String) (i : Nat) (n : RawNode), n.id = none →
      nodeErrors ids seen i n =
        (requiredFields.filter (fun f => !fieldPresent n f)).map
          (VError.missingField i)) := by
  have hplace : ∀ (k : Nat) (hk : k < nodes.length) (err : VError)
      (seenArb : Finset String),
      (∀ seen : Finset String,
        err ∈ nodeErrors (allIds nodes) seen k (nodes.get ⟨k, hk⟩)) →
      err ∈ validate_nodes nodes := by
    intro k hk err _ h
    unfold validate_nodes
    have := validateLoop_mem (allIds nodes) nodes 0 ∅ k hk err
    apply this
    rw [Nat.zero_add]
    exact h _
  refine ⟨?_, ?_, ?_, ?_, ?_, ?_⟩
  · intro i hi f hf hnp
    exact hplace i hi _ ∅ (fun seen =>
      mem_nodeErrors_missingField (allIds nodes) seen i _ f hf hnp)
  · intro i j hi hj x hij hidi hidj
    unfold validate_nodes
    apply validateLoop_mem (allIds nodes) nodes 0 ∅ j hj
    rw [Nat.zero_add]
    apply mem_nodeErrors_dup (allIds nodes) _ j _ x hidj
    apply Finset.mem_union_right
    rw [List.mem_toFinset]
    apply List.mem_filterMap.mpr
    refine ⟨nodes.get ⟨i, hi⟩, ?_, hidi⟩
    have hlen : i < (nodes.take j).length := by
      simp [Nat.lt_min, hij, hi]
    have hgt : (nodes.take j).get ⟨i, hlen⟩ = nodes.get ⟨i, hi⟩ := by
      simp [List.getElem_take]
    rw [← hgt]
    exact List.get_mem _ _ hlen
  · intro n hn x hid hfmt
    obtain ⟨⟨k, hk⟩, rfl⟩ := List.mem_iff_get.mp hn
    exact hplace k hk _ ∅ (fun seen =>
      mem_nodeErrors_fmt (allIds nodes) seen k _ x hid hfmt)
  · intro n hn x t hid ht hbad
    obtain ⟨⟨k, hk⟩, rfl⟩ := List.mem_iff_get.mp hn
    exact hplace k hk _ ∅ (fun seen =>
      mem_nodeErrors_type (allIds nodes) seen k _ x t hid ht hbad)
  · intro n hn x e hid he
    obtain ⟨⟨k, hk⟩, rfl⟩ := List.mem_iff_get.mp hn
    constructor
    · intro ht
      exact hplace k hk _ ∅ (fun seen =>
        mem_nodeErrors_of_edgeError (allIds nodes) seen k _ x _ hid
          (mem_edgeErrorsFor_none (allIds nodes) x _ e he ht))
    · intro t ht hna
      exact hplace k hk _ ∅ (fun seen =>
        mem_nodeErrors_of_edgeError (allIds nodes) seen k _ x _ hid
          (mem_edgeErrorsFor_dangling (allIds nodes) x t _ e he ht hna))
  · intro ids seen i n hid
    simp [nodeErrors, hid]

theorem claim_C6_witness :
    (0 : Nat) < badNodes.length ∧ ("label" : String) ∈ requiredFields ∧
    fieldPresent (badNodes.get ⟨0, by decide⟩) "label" = false ∧
    VError.missingField 0 "label" ∈ validate_nodes badNodes :=
  ⟨by decide, by decide, by decide,
    (claim_C6 badNodes).1 0 (by decide) "label" (by decide) (by decide)⟩

/-! ## Dictionary lemmas -/

theorem dictLookup_dictInsert_self {β : Type} (d : List (String × β))
    (k : String) (v : β) :
    dictLookup (dictInsert d k v) k = some v := by
  induction d with
  | nil => simp [dictInsert, dictLookup]
  | cons p rest ih =>
      obtain ⟨k', v'⟩ := p
      by_cases h : k = k'
      · simp [dictInsert, dictLookup, h]
      · simp [dictInsert, dictLookup, h, ih]

theorem dictLookup_dictInsert_ne {β : Type} (d : List (String × β))
    (k k' : String) (v : β) (h : k' ≠ k) :
    dictLookup (dictInsert d k v) k' = dictLookup d k' := by
  induction d with
  | nil => simp [dictInsert, dictLookup, h]
  | cons p rest ih =>
      obtain ⟨a, b⟩ := p
      by_cases hk : k = a
      · subst hk
        simp [dictInsert, dictLookup, h]
      · by_cases hk' : k' = a
        · simp [dictInsert, dictLookup, hk, hk']
        · simp [dictInsert, dictLookup, hk, hk', ih]

theorem dictLookup_dictModify_self {β : Type} (d : List (String × β))
    (k : String) (f : β → β) :
    dictLookup (dictModify d k f) k = (dictLookup d k).map f := by
  induction d with
  | nil => simp [dictModify, dictLookup]
  | cons p rest ih =>
      obtain ⟨a, b⟩ := p
      by_cases h : k = a
      · simp [dictModify, dictLookup, h]
      · simp [dictModify, dictLookup, h, ih]

theorem dictLookup_dictModify_ne {β : Type} (d : List (String × β))
    (k k' : String) (f : β → β) (h : k' ≠ k) :
    dictLookup (dictModify d k f) k' = dictLookup d k' := by
  induction d with
  | nil => simp [dictModify, dictLookup]
  | cons p rest ih =>
      obtain ⟨a, b⟩ := p
      by_cases hk : k = a
      · subst hk
        simp [dictModify, dictLookup, h]
      · by_cases hk' : k' = a
        · simp [dictModify, dictLookup, hk, hk']
        · simp [dictModify, dictLookup, hk, hk', ih]

/-! ## Reverse-lookup characterization -/

theorem rlInit_lookup_aux :
    ∀ (l : List RawNode) (d : List (String × Finset String)) (k : String),
      dictLookup (l.foldl (fun d n => dictInsert d (n.id.getD "") ∅) d) k
        = if k ∈ l.map (fun n => n.id.getD "") then some ∅
          else dictLookup d k := by
  intro l
  induction l with
  | nil => intro d k; simp
  | cons n rest ih =>
      intro d k
      simp only [List.foldl_cons, List.map_cons, List.mem_cons]
      rw [ih]
      by_cases hk : k ∈ rest.map (fun n => n.id.getD "")
      · simp [hk]
      · by_cases hk2 : k = n.id.getD ""
        · simp [hk, hk2, dictLookup_dictInsert_self]
        · simp [hk, hk2, dictLookup_dictInsert_ne _ _ _ _ hk2]

theorem rlInit_lookup (nodes : List RawNode) (k : String) :
    dictLookup (rlInit nodes) k
      = if k ∈ nodes.map (fun n => n.id.getD "") then some ∅ else none := by
  unfold rlInit
  rw [rlInit_lookup_aux]
  simp [dictLookup]

theorem rlAddEdges_lookup (node_id : String) :
    ∀ (es : List RawEdge) (d : List (String × Finset String)) (k : String),
      dictLookup (rlAddEdges node_id es d) k
        = (dictLookup d k).map
            (fun v =>
              if es.any (fun e => e.target.getD "" = k) then insert node_id v
              else v) := by
  intro es
  induction es with
  | nil =>
      intro d k
      cases h : dictLookup d k <;> simp [rlAddEdges, h]
  | cons e rest ih =>
      intro d k
      have hstep : rlAddEdges node_id (e :: rest) d
          = rlAddEdges node_id rest
              (if dictContains d (e.target.getD "")
               then dictModify d (e.target.getD "") (insert node_id)
               else d) := rfl
      rw [hstep, ih]
      by_cases ht : e.target.getD "" = k
      · have hd' : dictLookup
            (if dictContains d (e.target.getD "")
             then dictModify d (e.target.getD "") (insert node_id)
             else d) k = (dictLookup d k).map (insert node_id) := by
          rw [ht]
          by_cases hc : dictContains d k
          · simp [hc, dictLookup_dictModify_self]
          · have hnone : dictLookup d k = none := by
              unfold dictContains at hc
              cases h : dictLookup d k
              · rfl
              · rw [h] at hc; simp at hc
            simp [hc, hnone]
        rw [hd']
        have hany : (e :: rest).any (fun e => e.target.getD "" = k) = true := by
          simp [List.any_cons, ht]
        rw [hany]
        cases h : dictLookup d k with
        | none => simp
        | some v =>
            by_cases hr : rest.any (fun e => e.target.getD "" = k)
            · simp [hr, Finset.insert_idem]
            · simp [hr]
      · have hd' : dictLookup
            (if dictContains d (e.target.getD "")
             then dictModify d (e.target.getD "") (insert node_id)
             else d) k = dictLookup d k := by
          by_cases hc : dictContains d (e.target.getD "")
          · simp only [hc, if_pos]
            exact dictLookup_dictModify_ne _ _ _ _ (fun hcon => ht hcon.symm)
          · simp [hc]
        rw [hd']
        have hany : (e :: rest).any (fun e => e.target.getD "" = k)
            = rest.any (fun e => e.target.getD "" = k) := by
          simp [List.any_cons, ht]
        rw [hany]

theorem rlPure_phase2_lookup :
    ∀ (l : List RawNode) (d : List (String × Finset String)) (k : String),
      dictLookup
          (l.foldl (fun d n => rlAddEdges (n.id.getD "") n.edgesList d) d) k
        = (dictLookup d k).map (fun v => v ∪ refSet l k) := by
  intro l
  induction l with
  | nil =>
      intro d k
      cases h : dictLookup d k <;> simp [refSet, h]
  | cons n rest ih =>
      intro d k
      simp only [List.foldl_cons]
      rw [ih, rlAddEdges_lookup]
      cases h : dictLookup d k with
      | none => simp
      | some v =>
          simp only [Option.map_some']
          by_cases hany : n.edgesList.any (fun e => e.target.getD "" = k)
          · simp only [hany, if_pos]
            have href : refSet (n :: rest) k
                = insert (n.id.getD "") (refSet rest k) := by
              simp [refSet, List.filter_cons, hany]
            rw [href]
            congr 1
            ext x
            simp only [Finset.mem_union, Finset.mem_insert]
            tauto
          · simp only [hany]
            have href : refSet (n :: rest) k = refSet rest k := by
              simp [refSet, List.filter_cons, hany]
            rw [href]
            simp

theorem rlPure_lookup (nodes : List RawNode) (k : String) :
    dictLookup (rlPure nodes) k
      = if k ∈ nodes.map (fun n => n.id.getD "")
        then some (refSet nodes k) else none := by
  unfold rlPure
  rw [rlPure_phase2_lookup, rlInit_lookup]
  by_cases h : k ∈ nodes.map (fun n => n.id.getD "") <;> simp [h]

theorem foldlM_phase1_eq :
    ∀ (l : List RawNode), (∀ n ∈ l, n.id.isSome) →
      ∀ (d : List (String × Finset String)),
      (l.foldlM
          (fun d n =>
            n.id.bind fun node_id =>
              pure (dictInsert d node_id (∅ : Finset String))) d : Option _)
        = some (l.foldl (fun d n => dictInsert d (n.id.getD "") ∅) d) := by
  intro l
  induction l with
  | nil => intro _ d; simp
  | cons n rest ih =>
      intro h d
      obtain ⟨a, ha⟩ := Option.isSome_iff_exists.mp (h n (by simp))
      simp only [List.foldlM_cons, ha, Option.some_bind, Option.pure_def,
        Option.bind_eq_bind, List.foldl_cons, Option.getD_some]
      exact ih (fun m hm => h m (by simp [hm])) (dictInsert d a ∅)

theorem foldlM_edges_eq (node_id : String) :
    ∀ (es : List RawEdge), (∀ e ∈ es, e.target.isSome) →
      ∀ (d : List (String × Finset String)),
      (es.foldlM
          (fun d e =>
            e.target.bind fun target =>
              pure (if dictContains d target
                    then dictModify d target (insert node_id) else d)) d :
        Option _)
        = some (rlAddEdges node_id es d) := by
  intro es
  induction es with
  | nil => intro _ d; simp [rlAddEdges]
  | cons e rest ih =>
      intro h d
      obtain ⟨t, ht⟩ := Option.isSome_iff_exists.mp (h e (by simp))
      have hstep : rlAddEdges node_id (e :: rest) d
          = rlAddEdges node_id rest
              (if dictContains d (e.target.getD "")
               then dictModify d (e.target.getD "") (insert node_id)
               else d) := rfl
      rw [hstep]
      simp only [List.foldlM_cons, ht, Option.some_bind, Option.pure_def,
        Option.bind_eq_bind, Option.getD_some]
      exact ih (fun e' he' => h e' (by simp [he']))
        (if dictContains d t then dictModify d t (insert node_id) else d)

theorem foldlM_phase2_eq :
    ∀ (l : List RawNode), (∀ n ∈ l, n.id.isSome) →
      (∀ n ∈ l, ∀ e ∈ n.edgesList, e.target.isSome) →
      ∀ (d : List (String × Finset String)),
      (l.foldlM
          (fun d n =>
            n.id.bind fun node_id =>
              n.edgesList.foldlM
                (fun d e =>
                  e.target.bind fun target =>
                    pure (if dictContains d target
                          then dictModify d target (insert node_id) else d))
                d) d : Option _)
        = some (l.foldl
            (fun d n => rlAddEdges (n.id.getD "") n.edgesList d) d) := by
  intro l
  induction l with
  | nil => intro _ _ d; simp
  | cons n rest ih =>
      intro hid htg d
      obtain ⟨a, ha⟩ := Option.isSome_iff_exists.mp (hid n (by simp))
      simp only [List.foldlM_cons, ha, Option.some_bind,
        Option.bind_eq_bind, List.foldl_cons, Option.getD_some]
      rw [foldlM_edges_eq a n.edgesList (htg n (by simp)) d]
      simp only [Option.some_bind]
      exact ih (fun m hm => hid m (by simp [hm]))
        (fun m hm => htg m (by simp [hm]))
        (rlAddEdges a n.edgesList d)

theorem build_reverse_lookup_eq_rlPure (nodes : List RawNode)
    (hid : ∀ n ∈ nodes, n.id.isSome)
    (htg : ∀ n ∈ nodes, ∀ e ∈ n.edgesList, e.target.isSome) :
    build_reverse_lookup nodes = some (rlPure nodes) := by
  unfold build_reverse_lookup
  simp only [Option.bind_eq_bind]
  rw [foldlM_phase1_eq nodes hid []]
  simp only [Option.some_bind]
  unfold rlPure rlInit
  exact foldlM_phase2_eq nodes hid htg _

/-! ## Facts about validated node lists -/

theorem validate_nodes_mem_of (nodes : List RawNode) (k : Nat)
    (hk : k < nodes.length) (err : VError)
    (h : ∀ seen : Finset String,
      err ∈ nodeErrors (allIds nodes) seen k (nodes.get ⟨k, hk⟩)) :
    err ∈ validate_nodes nodes := by
  unfold validate_nodes
  apply validateLoop_mem (allIds nodes) nodes 0 ∅ k hk err
  rw [Nat.zero_add]
  exact h _

theorem validated_id_isSome (nodes : List RawNode)
    (hval : validate_nodes nodes = []) :
    ∀ n ∈ nodes, n.id.isSome := by
  intro n hn
  by_contra hcon
  have hid : n.id = none := by
    cases h : n.id
    · rfl
    · rw [h] at hcon; simp at hcon
  obtain ⟨⟨k, hk⟩, rfl⟩ := List.mem_iff_get.mp hn
  simp only [List.get_eq_getElem] at hid
  have hmem := validate_nodes_mem_of nodes k hk (VError.missingField k "id")
    (fun seen => mem_nodeErrors_missingField _ seen k _ "id"
      (by simp [requiredFields]) (by simp [fieldPresent, hid]))
  rw [hval] at hmem
  simp at hmem

theorem validated_target_isSome (nodes : List RawNode)
    (hval : validate_nodes nodes = []) :
    ∀ n ∈ nodes, ∀ e ∈ n.edgesList, e.target.isSome := by
  intro n hn e he
  by_contra hcon
  have ht : e.target = none := by
    cases h : e.target
    · rfl
    · rw [h] at hcon; simp at hcon
  obtain ⟨a, ha⟩ := Option.isSome_iff_exists.mp
    (validated_id_isSome nodes hval n hn)
  obtain ⟨⟨k, hk⟩, rfl⟩ := List.mem_iff_get.mp hn
  have hmem := validate_nodes_mem_of nodes k hk (VError.edgeMissingTarget a)
    (fun seen => mem_nodeErrors_of_edgeError _ seen k _ a _ ha
      (mem_edgeErrorsFor_none _ a _ e he ht))
  rw [hval] at hmem
  simp at hmem

theorem validated_id_getD_injective (nodes : List RawNode)
    (hval : validate_nodes nodes = []) :
    ∀ (i j : Nat) (hi : i < nodes.length) (hj : j < nodes.length),
      i ≠ j →
      (nodes.get ⟨i, hi⟩).id.getD "" ≠ (nodes.get ⟨j, hj⟩).id.getD "" := by
  have key : ∀ (i j : Nat) (hi : i < nodes.length) (hj : j < nodes.length),
      i < j →
      (nodes.get ⟨i, hi⟩).id.getD "" = (nodes.get ⟨j, hj⟩).id.getD "" →
      False := by
    intro i j hi hj hij heq
    obtain ⟨a, ha⟩ := Option.isSome_iff_exists.mp
      (validated_id_isSome nodes hval _ (List.get_mem _ _ hi))
    obtain ⟨b, hb⟩ := Option.isSome_iff_exists.mp
      (validated_id_isSome nodes hval _ (List.get_mem _ _ hj))
    rw [ha, hb] at heq
    simp only [Option.getD_some] at heq
    have hmem : VError.duplicateId b ∈ validate_nodes nodes := by
      unfold validate_nodes
      apply validateLoop_mem (allIds nodes) nodes 0 ∅ j hj
      rw [Nat.zero_add]
      apply mem_nodeErrors_dup (allIds nodes) _ j _ b hb
      apply Finset.mem_union_right
      rw [List.mem_toFinset]
      apply List.mem_filterMap.mpr
      refine ⟨nodes.get ⟨i, hi⟩, ?_, by rw [ha, heq]⟩
      have hlen : i < (nodes.take j).length := by
        simp [Nat.lt_min, hij, hi]
      have hgt : (nodes.take j).get ⟨i, hlen⟩ = nodes.get ⟨i, hi⟩ := by
        simp [List.getElem_take]
      rw [← hgt]
      exact List.get_mem _ _ hlen
    rw [hval] at hmem
    simp at hmem
  intro i j hi hj hij heq
  rcases Nat.lt_or_ge i j with h | h
  · exact key i j hi hj h heq
  · exact key j i hj hi (lt_of_le_of_ne h (Ne.symm hij)) heq.symm

/-! ## Lookup in the emitted index -/

theorem foldl_dictInsert_lookup_of_no_key {β : Type} (key : RawNode → String)
    (val : RawNode → β) :
    ∀ (l : List RawNode) (d : List (String × β)) (k : String),
      (∀ m ∈ l, key m ≠ k) →
      dictLookup (l.foldl (fun d n => dictInsert d (key n) (val n)) d) k
        = dictLookup d k := by
  intro l
  induction l with
  | nil => intro d k _; rfl
  | cons n rest ih =>
      intro d k h
      simp only [List.foldl_cons]
      rw [ih _ _ (fun m hm => h m (by simp [hm]))]
      exact dictLookup_dictInsert_ne _ _ _ _
        (fun hcon => (h n (by simp)) hcon.symm)

theorem foldl_dictInsert_lookup_unique {β : Type} (key : RawNode → String)
    (val : RawNode → β) :
    ∀ (l : List RawNode) (d : List (String × β)) (n : RawNode),
      n ∈ l →
      (∀ m ∈ l, key m = key n → val m = val n) →
      dictLookup (l.foldl (fun d n => dictInsert d (key n) (val n)) d) (key n)
        = some (val n) := by
  intro l
  induction l with
  | nil => intro d n hn; simp at hn
  | cons m rest ih =>
      intro d n hn hcong
      simp only [List.foldl_cons]
      by_cases hrest : ∃ m' ∈ rest, key m' = key n
      · obtain ⟨m', hm', hkey⟩ := hrest
        have hcong' : ∀ m'' ∈ rest, key m'' = key m' → val m'' = val m' := by
          intro m'' hm'' hk''
          have h1 := hcong m'' (by simp [hm'']) (hk''.trans hkey)
          have h2 := hcong m' (by simp [hm']) hkey
          rw [h1, h2]
        have hres := ih (dictInsert d (key m) (val m)) m' hm' hcong'
        rw [hkey] at hres
        rw [hres]
        have := hcong m' (by simp [hm']) hkey
        rw [this]
      · push_neg at hrest
        have hnm : n = m := by
          rcases List.mem_cons.mp hn with h | h
          · exact h
          · exact absurd rfl (hrest n h)
        rw [← hnm]
        rw [foldl_dictInsert_lookup_of_no_key key val rest _ _ hrest]
        exact dictLookup_dictInsert_self _ _ _

theorem generate_index_json_lookup (nodes : List RawNode)
    (rl : List (String × Finset String)) (n : RawNode) (hn : n ∈ nodes)
    (hcong : ∀ m ∈ nodes, m.id.getD "" = n.id.getD "" →
      indexRecFor rl m = indexRecFor rl n) :
    dictLookup (generate_index_json nodes rl) (n.id.getD "")
      = some (indexRecFor rl n) := by
  unfold generate_index_json
  exact foldl_dictInsert_lookup_unique (fun n => n.id.getD "")
    (indexRecFor rl) nodes [] n hn hcong

theorem refSet_eq_empty_iff (nodes : List RawNode) (k : String)
    (htg : ∀ n ∈ nodes, ∀ e ∈ n.edgesList, e.target.isSome) :
    refSet nodes k = ∅ ↔
      ∀ m ∈ nodes, ∀ e ∈ m.edgesList, e.target ≠ some k := by
  constructor
  · intro h m hm e he hcon
    have hany : m.edgesList.any (fun e => e.target.getD "" = k) = true := by
      rw [List.any_eq_true]
      exact ⟨e, he, by rw [hcon]; simp⟩
    have hmem : m.id.getD "" ∈ refSet nodes k := by
      unfold refSet
      rw [List.mem_toFinset]
      exact List.mem_map.mpr ⟨m, List.mem_filter.mpr ⟨hm, hany⟩, rfl⟩
    rw [h] at hmem
    simp at hmem
  · intro h
    unfold refSet
    have hfil : nodes.filter
        (fun m => m.edgesList.any (fun e => e.target.getD "" = k)) = [] := by
      rw [List.filter_eq_nil]
      intro m hm
      simp only [List.any_eq_true, decide_eq_true_eq, not_exists, not_and]
      intro e he hke
      obtain ⟨t, ht⟩ := Option.isSome_iff_exists.mp (htg m hm e he)
      rw [ht] at hke
      simp only [Option.getD_some] at hke
      exact h m hm e he (by rw [ht, hke])
    rw [hfil]
    simp

/-- C7: for every node N of a validated node list, the index.json record of
N has isolated = true exactly when N has no outgoing edges (absent or empty
edges key) and no node's edge targets N (its reverse-reference set is
empty); otherwise isolated = false. -/
theorem claim_C7 (nodes : List RawNode) (hval : validate_nodes nodes = [])
    (n : RawNode) (hn : n ∈ nodes) :
    ∃ nid, n.id = some nid ∧
    ∃ rl, build_reverse_lookup nodes = some rl ∧
    ∃ rec : IndexRec,
      dictLookup (generate_index_json nodes rl) nid = some rec ∧
      (rec.isolated = true ↔
        n.edgesList = [] ∧
        ∀ m ∈ nodes, ∀ e ∈ m.edgesList, e.target ≠ some nid) := by
  have hid := validated_id_isSome nodes hval
  have htg := validated_target_isSome nodes hval
  obtain ⟨nid, hnid⟩ := Option.isSome_iff_exists.mp (hid n hn)
  have hgetD : n.id.getD "" = nid := by rw [hnid]; rfl
  have hcong : ∀ m ∈ nodes, m.id.getD "" = n.id.getD "" →
      indexRecFor (rlPure nodes) m = indexRecFor (rlPure nodes) n := by
    intro m hm heq
    by_cases hmn : m = n
    · rw [hmn]
    · exfalso
      obtain ⟨⟨i, hi⟩, hgi⟩ := List.mem_iff_get.mp hm
      obtain ⟨⟨j, hj⟩, hgj⟩ := List.mem_iff_get.mp hn
      have hij : i ≠ j := by
        intro hcon
        subst hcon
        exact hmn (by rw [← hgi, hgj])
      exact validated_id_getD_injective nodes hval i j hi hj hij
        (by rw [hgi, hgj, heq])
  refine ⟨nid, hnid, rlPure nodes,
    build_reverse_lookup_eq_rlPure nodes hid htg,
    indexRecFor (rlPure nodes) n, ?_, ?_⟩
  · rw [← hgetD]
    exact generate_index_json_lookup nodes _ n hn hcong
  · have hk : n.id.getD "" ∈ nodes.map (fun n => n.id.getD "") :=
      List.mem_map.mpr ⟨n, hn, rfl⟩
    have hlook : dictLookup (rlPure nodes) (n.id.getD "")
        = some (refSet nodes (n.id.getD "")) := by
      rw [rlPure_lookup]
      simp [hk]
    rw [show (indexRecFor (rlPure nodes) n).isolated
        = (!(!n.edgesList.isEmpty) &&
           !decide (((dictLookup (rlPure nodes) (n.id.getD "")).getD ∅) ≠ ∅))
        from rfl]
    rw [hlook]
    simp only [Option.getD_some]
    constructor
    · intro hb
      rw [Bool.and_eq_true] at hb
      obtain ⟨h1, h2⟩ := hb
      constructor
      · rw [Bool.not_not] at h1
        exact List.isEmpty_iff.mp h1
      · have h3 : ¬(refSet nodes (n.id.getD "") ≠ ∅) := by simpa using h2
        have hempty : refSet nodes (n.id.getD "") = ∅ := not_not.mp h3
        rw [hgetD] at hempty
        exact (refSet_eq_empty_iff nodes nid htg).mp hempty
    · rintro ⟨h1, h2⟩
      rw [Bool.and_eq_true]
      constructor
      · rw [Bool.not_not]
        exact List.isEmpty_iff.mpr h1
      · have hempty : refSet nodes nid = ∅ :=
          (refSet_eq_empty_iff nodes nid htg).mpr h2
        rw [← hgetD] at hempty
        simp [hempty]

theorem claim_C7_witness :
    validate_nodes demoNodes = [] ∧
    (∃ nid, (demoNodes.get ⟨0, by decide⟩).id = some nid ∧
      ∃ rl, build_reverse_lookup demoNodes = some rl ∧
      ∃ rec : IndexRec,
        dictLookup (generate_index_json demoNodes rl) nid = some rec ∧
        (rec.isolated = true ↔
          (demoNodes.get ⟨0, by decide⟩).edgesList = [] ∧
          ∀ m ∈ demoNodes, ∀ e ∈ m.edgesList, e.target ≠ some nid)) :=
  ⟨by decide, claim_C7 demoNodes (by decide) _ (by decide)⟩

/-- C10 (amended): build_reverse_lookup is total over node lists whose
records carry their id keys and whose edges carry their target keys; on
such input an edge whose target is not among the node ids is silently
ignored (neither an error nor a new key), the key set of the returned
mapping is exactly the set of input node ids, and the value at key k is
exactly the set of ids of nodes holding an edge targeting k. On a node
record without an id key the function raises instead of returning a
mapping. -/
theorem claim_C10 (nodes : List RawNode)
    (hid : ∀ n ∈ nodes, n.id.isSome)
    (htg : ∀ n ∈ nodes, ∀ e ∈ n.edgesList, e.target.isSome) :
    ∃ rl, build_reverse_lookup nodes = some rl ∧
      (∀ k, dictContains rl k = true ↔ ∃ m ∈ nodes, m.id = some k) ∧
      (∀ k v, dictLookup rl k = some v →
        ∀ x, x ∈ v ↔ ∃ m ∈ nodes, m.id = some x ∧
          ∃ e ∈ m.edgesList, e.target = some k) := by
  refine ⟨rlPure nodes, build_reverse_lookup_eq_rlPure nodes hid htg, ?_, ?_⟩
  · intro k
    unfold dictContains
    rw [rlPure_lookup]
    by_cases h : k ∈ nodes.map (fun n => n.id.getD "")
    · simp only [h, if_pos, Option.isSome_some]
      constructor
      · intro _
        obtain ⟨m, hm, hkm⟩ := List.mem_map.mp h
        obtain ⟨a, ha⟩ := Option.isSome_iff_exists.mp (hid m hm)
        rw [ha] at hkm
        simp only [Option.getD_some] at hkm
        exact ⟨m, hm, by rw [ha, hkm]⟩
      · intro _
        trivial
    · simp only [h, if_neg]
      constructor
      · intro hcon
        simp at hcon
      · rintro ⟨m, hm, hkm⟩
        exact absurd (List.mem_map.mpr ⟨m, hm, by rw [hkm]; rfl⟩) h
  · intro k v hv x
    rw [rlPure_lookup] at hv
    by_cases h : k ∈ nodes.map (fun n => n.id.getD "")
    · rw [if_pos h] at hv
      have hveq : v = refSet nodes k := by
        cases hv
        rfl
      subst hveq
      constructor
      · intro hx
        unfold refSet at hx
        rw [List.mem_toFinset] at hx
        obtain ⟨m, hmf, hxm⟩ := List.mem_map.mp hx
        obtain ⟨hm, hany⟩ := List.mem_filter.mp hmf
        obtain ⟨a, ha⟩ := Option.isSome_iff_exists.mp (hid m hm)
        rw [List.any_eq_true] at hany
        obtain ⟨e, he, hke⟩ := hany
        obtain ⟨t, ht⟩ := Option.isSome_iff_exists.mp (htg m hm e he)
        rw [ht] at hke
        simp only [Option.getD_some, decide_eq_true_eq] at hke
        rw [ha] at hxm
        simp only [Option.getD_some] at hxm
        exact ⟨m, hm, by rw [ha, hxm], e, he, by rw [ht, hke]⟩
      · rintro ⟨m, hm, hidm, e, he, hte⟩
        unfold refSet
        rw [List.mem_toFinset]
        apply List.mem_map.mpr
        refine ⟨m, List.mem_filter.mpr ⟨hm, ?_⟩, by rw [hidm]; rfl⟩
        rw [List.any_eq_true]
        exact ⟨e, he, by rw [hte]; simp⟩
    · rw [if_neg h] at hv
      exact absurd hv (by simp)

theorem claim_C10_witness :
    (∀ n ∈ demoNodes, n.id.isSome) ∧
    (∀ n ∈ demoNodes, ∀ e ∈ n.edgesList, e.target.isSome) ∧
    (∃ rl, build_reverse_lookup demoNodes = some rl ∧
      (∀ k, dictContains rl k = true ↔ ∃ m ∈ demoNodes, m.id = some k) ∧
      (∀ k v, dictLookup rl k = some v →
        ∀ x, x ∈ v ↔ ∃ m ∈ demoNodes, m.id = some x ∧
          ∃ e ∈ m.edgesList, e.target = some k)) :=
  ⟨by decide, by decide, claim_C10 demoNodes (by decide) (by decide)⟩

/-- C10 as stated fails on the code: build_reverse_lookup subscripts the id
key of every node, so on a node list containing a record without an id it
raises (returns no mapping) instead of being total. -/
theorem claim_C10_counterexample : build_reverse_lookup badNodes = none := by
  decide
